import Mathlib

/-!
Verification development for the Tonnetz-Map repository's lattice engine.

The engine lives in `src/utils/music.ts` (`mod`, `getPitchClass`,
`getNeighbors`, `findChordLayout`), the pointer hit-testing in
`src/components/TonnetzGrid.tsx`, and the id-parsing handlers in
`src/App.tsx`. Each definition below is a shallow embedding of the
corresponding source function: JavaScript numbers holding lattice
coordinates become `Int`, the JS `%` operator (truncated remainder)
becomes `Int.tmod`, the `Set<string>` of visited keys `"lx,ly"` becomes a
`List LPoint` (the key encoding is injective), and the array-plus-head
BFS queue becomes a list processed head-first with pushes at the end.
The while-loop is given explicit fuel; `queuePot` is a potential that
strictly decreases at every iteration, so running the loop with
`queuePot q` fuel computes the loop's exact result (`bfsLoopF_stable`
below shows the result is the same for every sufficient fuel).
Screen-space geometry (floating point in the source) is idealized over
`ℝ`. A thrown JS exception is modelled as `none` in an `Option` result.
-/

namespace Tonnetz

/-- A lattice point `{lx, ly}` (src/utils/music.ts, src/types.ts). -/
structure LPoint where
  lx : Int
  ly : Int
deriving DecidableEq, Repr

/-- `mod` from src/utils/music.ts lines 161-163:
`((n % m) + m) % m` with JS `%` = truncated remainder. -/
def mod (n m : Int) : Int :=
  Int.tmod (Int.tmod n m + m) m

/-- `getPitchClass` from src/utils/music.ts lines 166-168. -/
def getPitchClass (lx ly : Int) : Int :=
  mod (lx * 7 + ly * 4) 12

/-- `getNeighbors` from src/utils/music.ts lines 171-180, in source order. -/
def getNeighbors (lx ly : Int) : List LPoint :=
  [⟨lx + 1, ly⟩, ⟨lx - 1, ly⟩, ⟨lx, ly + 1⟩, ⟨lx, ly - 1⟩,
   ⟨lx + 1, ly - 1⟩, ⟨lx - 1, ly + 1⟩]

/-- A BFS queue entry `{lx, ly, dist}` (src/utils/music.ts line 194). -/
structure QEntry where
  lx : Int
  ly : Int
  dist : Nat
deriving DecidableEq, Repr

/-- BFS state: the queue and the visited set (src/utils/music.ts lines 194-195). -/
abbrev BfsSt := List QEntry × List LPoint

/-- `enqueue` from src/utils/music.ts lines 200-206: push the point and mark
visited unless its key is already in the visited set. -/
def enqueue (st : BfsSt) (lx ly : Int) (d : Nat) : BfsSt :=
  if (⟨lx, ly⟩ : LPoint) ∈ st.2 then st
  else (st.1 ++ [⟨lx, ly, d⟩], (⟨lx, ly⟩ : LPoint) :: st.2)

/-- `getNeighbors(...).forEach(n => enqueue(n.lx, n.ly, d))`
(src/utils/music.ts lines 210, 214, 231). -/
def enqueueAll (st : BfsSt) (ns : List LPoint) (d : Nat) : BfsSt :=
  ns.foldl (fun s n => enqueue s n.lx n.ly d) st

/-- Upper bound on the number of future queue pushes an entry at depth `d`
can cause: `6 + 6^2 + ...` capped at depth 4. Used only as loop fuel. -/
def expandBound (d : Nat) : Nat :=
  (6 ^ (5 - d) - 6) / 5

/-- Fuel weight of one queue entry. -/
def entryWeight (e : QEntry) : Nat :=
  1 + expandBound e.dist

/-- Fuel potential of a queue: strictly decreases at each loop iteration. -/
def queuePot (q : List QEntry) : Nat :=
  (q.map entryWeight).sum

/-- The BFS while-loop of `findChordLayout` (src/utils/music.ts lines
221-233), with explicit fuel: dequeue, stop on a pitch-class match,
otherwise expand neighbors while `dist < 4`. -/
def bfsLoopF : Nat → Int → List QEntry → List LPoint → Option LPoint
  | 0, _, _, _ => none
  | _ + 1, _, [], _ => none
  | f + 1, t, e :: rest, vis =>
    if getPitchClass e.lx e.ly = t then some ⟨e.lx, e.ly⟩
    else if e.dist < 4 then
      bfsLoopF f t (enqueueAll (rest, vis) (getNeighbors e.lx e.ly) (e.dist + 1)).1
        (enqueueAll (rest, vis) (getNeighbors e.lx e.ly) (e.dist + 1)).2
    else bfsLoopF f t rest vis

/-- The seeded BFS state of `findChordLayout` (src/utils/music.ts lines
194-215): visited pre-populated with the selected nodes, queue seeded
with the neighbors of the last selected node (priority 1) and then the
neighbors of every other selected node in order (priority 2), all at
depth 1. -/
def seedState (selected : List LPoint) (lastNode : LPoint) : BfsSt :=
  selected.dropLast.foldl (fun s n => enqueueAll s (getNeighbors n.lx n.ly) 1)
    (enqueueAll ([], selected) (getNeighbors lastNode.lx lastNode.ly) 1)

/-- One interval's search in `findChordLayout` (src/utils/music.ts lines
194-233): build the seeded state, then run the BFS loop (with fuel
`queuePot`, which every loop iteration strictly decreases, so the fuel
never runs out — see `bfsLoopF_stable`). -/
def chordStep (selected : List LPoint) (targetPC : Int) : Option LPoint :=
  match selected.getLast? with
  | none => none
  | some lastNode =>
    bfsLoopF (queuePot (seedState selected lastNode).1) targetPC
      (seedState selected lastNode).1 (seedState selected lastNode).2

/-- The body of `findChordLayout`'s interval loop (src/utils/music.ts
lines 188-238): search for `mod(rootPC + iv, 12)` and push the result
onto `selected` if one was found (`if (found) selected.push(...)`). -/
def chordFoldStep (rootPC : Int) (selected : List LPoint) (iv : Int) : List LPoint :=
  match chordStep selected (mod (rootPC + iv) 12) with
  | some p => selected ++ [p]
  | none => selected

/-- `findChordLayout` from src/utils/music.ts lines 183-241: start from the
root and run the interval loop over `intervals[1..]`. -/
def findChordLayout (rootLx rootLy : Int) (intervals : List Int) : List LPoint :=
  (intervals.drop 1).foldl (chordFoldStep (getPitchClass rootLx rootLy))
    [⟨rootLx, rootLy⟩]

/-- `chordFoldStep` instrumented with the interval index: alongside the
embedding, record the pair `(i, embedded point)` when interval index `i`
was embedded. Skipped intervals record nothing. -/
def idxFoldStep (rootPC : Int) (acc : List LPoint × List (Nat × LPoint))
    (q : Nat × Int) : List LPoint × List (Nat × LPoint) :=
  match chordStep acc.1 (mod (rootPC + q.2) 12) with
  | some pt => (acc.1 ++ [pt], acc.2 ++ [(q.1, pt)])
  | none => acc

/-- Instrumented `findChordLayout`: the same fold over the intervals
(paired with their indices `1, 2, ...`), additionally recording which
interval index each embedded point was embedded for.
`findChordLayoutIdx_fst` below shows the first component is exactly
`findChordLayout`. -/
def findChordLayoutIdx (rootLx rootLy : Int) (intervals : List Int) :
    List LPoint × List (Nat × LPoint) :=
  (List.enumFrom 1 (intervals.drop 1)).foldl
    (idxFoldStep (getPitchClass rootLx rootLy)) ([⟨rootLx, rootLy⟩], [])

/-- `inBall d s p` : `p` is reachable from `s` in at most `d` steps of the
`getNeighbors` adjacency (NeighborGraph graph-distance at most `d`). -/
def inBall : Nat → LPoint → LPoint → Bool
  | 0, s, p => decide (s = p)
  | d + 1, s, p =>
    decide (s = p) || (getNeighbors s.lx s.ly).any fun n => inBall d n p

/-- Invariant of one BFS queue entry relative to the `selected` list: the
entry's point is none of the selected points, its recorded depth is in
`[1,4]`, and it lies within that depth of some selected point. -/
def EntryInv (selected : List LPoint) (e : QEntry) : Prop :=
  (⟨e.lx, e.ly⟩ : LPoint) ∉ selected ∧ 1 ≤ e.dist ∧ e.dist ≤ 4 ∧
    ∃ s ∈ selected, inBall e.dist s ⟨e.lx, e.ly⟩ = true

/-- Invariant of a BFS state relative to `selected`: every queue entry
satisfies `EntryInv`, and the visited set contains every selected point. -/
def QInv (selected : List LPoint) (q : List QEntry) (vis : List LPoint) : Prop :=
  (∀ e ∈ q, EntryInv selected e) ∧ ∀ s ∈ selected, s ∈ vis

/-- JS `String.prototype.split` with a one-character separator, on char
lists: `"".split(c) = [""]`, and separators delimit (possibly empty)
groups. -/
def splitOnChar (sep : Char) : List Char → List (List Char)
  | [] => [[]]
  | c :: cs =>
    if c = sep then [] :: splitOnChar sep cs
    else
      match splitOnChar sep cs with
      | [] => [[c]]
      | g :: gs => (c :: g) :: gs

/-- JS `s.split(sep)` for the single-character separators used in App.tsx. -/
def jsSplit (s : String) (sep : Char) : List String :=
  (splitOnChar sep s.toList).map fun cs => String.mk cs

/-- Value of a decimal-digit prefix; `none` when there is no digit. -/
def leadingDigits (cs : List Char) : Option Nat :=
  let ds := cs.takeWhile Char.isDigit
  if ds.isEmpty then none
  else some (ds.foldl (fun acc c => 10 * acc + (c.toNat - 48)) 0)

/-- JS `parseInt(s)` as used on id fragments: an optional sign followed by
a longest decimal-digit prefix; `none` models `NaN`. (The source's ids
never carry whitespace or a `0x` prefix, so those JS quirks are not
modelled.) -/
def parseIntJS (s : String) : Option Int :=
  match s.toList with
  | '-' :: rest => (leadingDigits rest).map fun n => -(n : Int)
  | '+' :: rest => (leadingDigits rest).map fun n => (n : Int)
  | cs => (leadingDigits cs).map fun n => (n : Int)

/-- JS `parseInt(arr[i])`: an out-of-range index yields `undefined`, which
`parseInt` turns into `NaN` (`none`). -/
def jsParseAt (l : List String) (i : Nat) : Option Int :=
  (l.get? i).bind parseIntJS

/-- The two pieces of App.tsx state that the id-parsing handlers read or
write: `activeNodeIds` (a `Set<string>`, modelled as a duplicate-free
insertion list) and `lastSelectedChordId`. -/
structure AppState where
  activeNodeIds : List String
  lastSelectedChordId : Option String
deriving DecidableEq, Repr

/-- `INTERVAL_OFFSETS` from src/App.tsx lines 20-27. -/
def INTERVAL_OFFSETS : List (String × Int × Int) :=
  [("5th", 1, 0), ("4th", -1, 0), ("Maj 3rd", 0, 1),
   ("Min 3rd", 1, -1), ("Maj 2nd", 2, 0), ("Min 2nd", -1, 2)]

/-- `handleChordClick` from src/App.tsx lines 105-130. `none` models a
thrown exception: `chordId.split(':')[1]` is `undefined` when the id has
no `:` (so `.split(',')` on it throws a TypeError before any state
update), and a `NaN` coordinate reaches `NOTES[NaN].name` (again a
TypeError) while computing `chordNotes`, also before any state update.
`playChord`/audio is outside the model. -/
def handleChordClick (chordId : String) (st : AppState) : Option AppState :=
  let parts := jsSplit chordId ':'
  match parts.get? 1 with
  | none => none
  | some coordsStr =>
    let coords := jsSplit coordsStr ','
    match jsParseAt coords 0, jsParseAt coords 1 with
    | some _, some _ =>
      some (if chordId ∈ st.activeNodeIds then
              { st with activeNodeIds := st.activeNodeIds.erase chordId }
            else
              { activeNodeIds := chordId :: st.activeNodeIds,
                lastSelectedChordId := some chordId })
    | _, _ => none

/-- `handleTranspose` from src/App.tsx lines 149-182. Early `return`s (no
selected chord, `parts.length !== 2`, unknown interval name) leave the
state unchanged; a `NaN` coordinate reaches `NOTES[...].name` via
`chordNotes` and throws (`none`) before any state update. -/
def handleTranspose (intervalName : String) (st : AppState) : Option AppState :=
  match st.lastSelectedChordId with
  | none => some st
  | some lastId =>
    let parts := jsSplit lastId ':'
    if parts.length ≠ 2 then some st
    else
      let ty := parts.getD 0 ""
      let coords := jsSplit (parts.getD 1 "") ','
      match List.lookup intervalName INTERVAL_OFFSETS with
      | none => some st
      | some off =>
        match jsParseAt coords 0, jsParseAt coords 1 with
        | some lx, some ly =>
          let newId := ty ++ ":" ++ toString (lx + off.1) ++ "," ++ toString (ly + off.2)
          some { activeNodeIds :=
                   if newId ∈ st.activeNodeIds then st.activeNodeIds
                   else newId :: st.activeNodeIds,
                 lastSelectedChordId := some newId }
        | _, _ => none

end Tonnetz

namespace Tonnetz

noncomputable section

open Real

/-- The view geometry of TonnetzGrid.tsx (`getGeometry`, lines 71-82):
a cell size and the screen origin. The source's floating-point numbers
are idealized as reals. -/
structure Geom where
  cellSize : ℝ
  originX : ℝ
  originY : ℝ

/-- Basis vector `v1 = (cellSize, 0)` (TonnetzGrid.tsx line 73). -/
def v1 (g : Geom) : ℝ × ℝ :=
  (g.cellSize, 0)

/-- Basis vector `v2 = (cos(π/3)·cellSize, −sin(π/3)·cellSize)`
(TonnetzGrid.tsx line 75). -/
def v2 (g : Geom) : ℝ × ℝ :=
  (Real.cos (Real.pi / 3) * g.cellSize, -Real.sin (Real.pi / 3) * g.cellSize)

/-- `getScreenPoint` from TonnetzGrid.tsx lines 84-90. -/
def getScreenPoint (lx ly : ℤ) (g : Geom) : ℝ × ℝ :=
  (g.originX + lx * (v1 g).1 + ly * (v2 g).1,
   g.originY + lx * (v1 g).2 + ly * (v2 g).2)

/-- `det = v1.x·v2.y − v2.x·v1.y` (TonnetzGrid.tsx line 117). -/
def detG (g : Geom) : ℝ :=
  (v1 g).1 * (v2 g).2 - (v2 g).1 * (v1 g).2

/-- The inverse projection of `handlePointerUp` (TonnetzGrid.tsx lines
115-124): solve for the fractional lattice coordinates through the 2×2
inverse, then round to the nearest integers (`Math.round`, which is
`⌊x + 1/2⌋`, exactly Mathlib's `round`). -/
def inverseProject (sx sy : ℝ) (g : Geom) : ℤ × ℤ :=
  let dx := sx - g.originX
  let dy := sy - g.originY
  let flx := ((v2 g).2 * dx - (v2 g).1 * dy) / detG g
  let fly := (-(v1 g).2 * dx + (v1 g).1 * dy) / detG g
  (round flx, round fly)

/-- `getGeometry` from TonnetzGrid.tsx lines 71-82 with
`BASE_CELL_SIZE = 60`: `cellSize = 60·zoom`, origin = center + pan. -/
def getGeometry (zoom panX panY width height : ℝ) : Geom :=
  { cellSize := 60 * zoom, originX := width / 2 + panX, originY := height / 2 + panY }

/-- The rounded candidate node of the note-mode hit test
(TonnetzGrid.tsx lines 115-124). -/
def candidateNode (clickX clickY zoom panX panY w h : ℝ) : ℤ × ℤ :=
  inverseProject clickX clickY (getGeometry zoom panX panY w h)

/-- `distToNode = Math.hypot(clickX − node.x, clickY − node.y)`
(TonnetzGrid.tsx lines 127-128): distance from the click to the screen
projection of the rounded candidate node. -/
def distToCandidate (clickX clickY zoom panX panY w h : ℝ) : ℝ :=
  let c := candidateNode clickX clickY zoom panX panY w h
  let node := getScreenPoint c.1 c.2 (getGeometry zoom panX panY w h)
  Real.sqrt ((clickX - node.1) ^ 2 + (clickY - node.2) ^ 2)

/-- The note-mode branch of `handlePointerUp` (TonnetzGrid.tsx lines
126-134) with `BASE_NODE_RADIUS = 22`: accept when
`distToNode ≤ (22·zoom)·1.5`, reporting `(noteIndex, lx, ly)` with
`noteIndex = mod(lx·7 + ly·4, 12)`; otherwise no hit (`none`,
`onNoteClick` is not invoked). -/
def hitTestNote (clickX clickY zoom panX panY w h : ℝ) : Option (ℤ × ℤ × ℤ) :=
  let c := candidateNode clickX clickY zoom panX panY w h
  if distToCandidate clickX clickY zoom panX panY w h ≤ 22 * zoom * 1.5 then
    some (getPitchClass c.1 c.2, c.1, c.2)
  else none

end

/-! ## Modular arithmetic of the pitch-class map -/

lemma tmod_twelve_lb (n : Int) : -12 < n.tmod 12 := by
  rcases n with m | m
  · have h0 : (0 : Int) ≤ Int.ofNat m := Int.ofNat_le.mpr (Nat.zero_le m)
    have := Int.tmod_nonneg 12 h0
    omega
  · have h : (Int.negSucc m).tmod 12 = -(((m + 1) % 12 : Nat) : Int) := rfl
    rw [h]
    have := Nat.mod_lt (m + 1) (y := 12) (by omega)
    omega

lemma tmod_twelve_congr (n : Int) : n.tmod 12 % 12 = n % 12 := by
  rw [Int.tmod_def]
  omega

/-- The source's `mod(n, 12)` agrees with the mathematical (Euclidean)
remainder: the double-`%` idiom fixes JS's truncated remainder. -/
lemma mod_eq_emod (n : Int) : mod n 12 = n % 12 := by
  unfold mod
  have hlb := tmod_twelve_lb n
  have hub := Int.tmod_lt_of_pos n (show (0 : Int) < 12 by norm_num)
  have hc := tmod_twelve_congr n
  rw [Int.tmod_eq_emod (by omega) (by norm_num)]
  omega

/-- Claim C8: `pitchClass(lx, ly) = mod(lx·7 + ly·4, 12)` always lies in
`[0, 11]` (also for negative coordinates), and moving one step along the
fifth axis adds 7 and along the third axis adds 4, mod 12. -/
theorem c8_pitch_class_algebra (lx ly : Int) :
    (0 ≤ getPitchClass lx ly ∧ getPitchClass lx ly ≤ 11) ∧
    getPitchClass (lx + 1) ly = mod (getPitchClass lx ly + 7) 12 ∧
    getPitchClass lx (ly + 1) = mod (getPitchClass lx ly + 4) 12 := by
  simp only [getPitchClass, mod_eq_emod]
  omega

/-! ## Concrete chord layouts and determinism -/

/-- Claim C2: the major triad `[0,4,7]` rooted at `(0,0)` embeds as
`[(0,0),(0,1),(1,0)]` and the minor triad `[0,3,7]` as
`[(0,0),(1,-1),(1,0)]`. -/
theorem c2_triad_layouts :
    findChordLayout 0 0 [0, 4, 7] = [⟨0, 0⟩, ⟨0, 1⟩, ⟨1, 0⟩] ∧
    findChordLayout 0 0 [0, 3, 7] = [⟨0, 0⟩, ⟨1, -1⟩, ⟨1, 0⟩] := by
  decide

/-- Claim C7: `findChordLayout` is deterministic — two calls on identical
root coordinates and interval lists return identical sequences. (The
embedding is a pure function; the source's only iteration orders are the
FIFO queue and the fixed neighbor enumeration, both captured in the
definitions.) -/
theorem c7_deterministic (rootLx rootLy : Int) (intervals : List Int)
    (out1 out2 : List LPoint)
    (h1 : out1 = findChordLayout rootLx rootLy intervals)
    (h2 : out2 = findChordLayout rootLx rootLy intervals) :
    out1 = out2 := by
  rw [h1, h2]

theorem c7_deterministic_witness :
    findChordLayout 0 0 [0, 4, 7] = findChordLayout 0 0 [0, 4, 7] :=
  c7_deterministic 0 0 [0, 4, 7] (findChordLayout 0 0 [0, 4, 7])
    (findChordLayout 0 0 [0, 4, 7]) rfl rfl

/-! ## Malformed-id handling (claim C3) -/

/-- Counterexample to claim C3 as stated: on the malformed id `"M2,-1"`
(missing the `:` separator) the chord-click handler is *not* a no-op —
`chordId.split(':')[1]` is `undefined` and calling `.split(',')` on it
throws a TypeError (modelled as `none`), so the claim's "does not raise"
fails for the chord-click handler. -/
theorem c3_cex_chord_click_throws :
    handleChordClick "M2,-1" ⟨[], none⟩ = none := by
  decide

/-- Claim C3 (amended): parsing a malformed chord-region id whose `:`
split does not have exactly two parts makes the transpose handler a
no-op — it returns the state unchanged and does not raise. (The
chord-click handler, by contrast, throws on such ids; see the
counterexample.) -/
theorem c3_transpose_noop (intervalName : String) (st : AppState) (id : String)
    (hlast : st.lastSelectedChordId = some id)
    (hmal : (jsSplit id ':').length ≠ 2) :
    handleTranspose intervalName st = some st := by
  unfold handleTranspose
  rw [hlast]
  simp [hmal]

theorem c3_transpose_noop_witness :
    handleTranspose "5th" ⟨[], some "M2,-1"⟩ = some ⟨[], some "M2,-1"⟩ :=
  c3_transpose_noop "5th" ⟨[], some "M2,-1"⟩ "M2,-1" rfl (by decide)

/-! ## Screen-space projection (claims C4, C9) -/

/-- Solving `screen = origin + lx·v1 + ly·v2` by the 2×2 inverse recovers
the exact fractional coordinates, for any basis with nonzero determinant. -/
lemma frac_solve (v1x v1y v2x v2y ox oy lx ly : ℝ)
    (hdet : v1x * v2y - v2x * v1y ≠ 0) :
    (v2y * ((ox + lx * v1x + ly * v2x) - ox) - v2x * ((oy + lx * v1y + ly * v2y) - oy)) /
      (v1x * v2y - v2x * v1y) = lx ∧
    (-v1y * ((ox + lx * v1x + ly * v2x) - ox) + v1x * ((oy + lx * v1y + ly * v2y) - oy)) /
      (v1x * v2y - v2x * v1y) = ly := by
  constructor <;> (field_simp; ring)

lemma detG_ne_zero (g : Geom) (hc : 0 < g.cellSize) : detG g ≠ 0 := by
  unfold detG v1 v2
  have hs : 0 < Real.sin (Real.pi / 3) := by
    rw [Real.sin_pi_div_three]
    positivity
  have he : g.cellSize * (-Real.sin (Real.pi / 3) * g.cellSize) -
      Real.cos (Real.pi / 3) * g.cellSize * 0 =
      -(Real.sin (Real.pi / 3) * g.cellSize ^ 2) := by ring
  simp only []
  rw [he]
  have hp : 0 < Real.sin (Real.pi / 3) * g.cellSize ^ 2 := by positivity
  exact neg_ne_zero.mpr (ne_of_gt hp)

/-- Claim C4: for every integer lattice point and every geometry with a
positive cell size, the inverse projection (2×2 solve, then round to the
nearest integers) of the forward projection returns exactly that lattice
point. -/
theorem c4_projection_roundtrip (g : Geom) (hc : 0 < g.cellSize) (lx ly : ℤ) :
    inverseProject (getScreenPoint lx ly g).1 (getScreenPoint lx ly g).2 g = (lx, ly) := by
  have hdet : detG g ≠ 0 := detG_ne_zero g hc
  have hdet2 : (v1 g).1 * (v2 g).2 - (v2 g).1 * (v1 g).2 ≠ 0 := hdet
  obtain ⟨h1, h2⟩ :=
    frac_solve (v1 g).1 (v1 g).2 (v2 g).1 (v2 g).2 g.originX g.originY lx ly hdet2
  unfold inverseProject getScreenPoint
  simp only [detG] at *
  rw [h1, h2, round_intCast, round_intCast]

theorem c4_projection_roundtrip_witness :
    inverseProject (getScreenPoint 2 (-1) ⟨60, 400, 300⟩).1
      (getScreenPoint 2 (-1) ⟨60, 400, 300⟩).2 ⟨60, 400, 300⟩ = (2, -1) :=
  c4_projection_roundtrip ⟨60, 400, 300⟩ (by norm_num) 2 (-1)

/-- Claim C9: the note-mode hit test accepts exactly when the Euclidean
distance from the click to the screen projection of the rounded candidate
node is at most 1.5 times the zoom-scaled node radius `22·zoom`, and on
acceptance it reports exactly `(pitchClass(lx,ly), lx, ly)`; otherwise it
reports no hit. (The hypothesis `0 < zoom` restricts the statement to
the regime where the real-number model is faithful to the source — the
app clamps zoom to `[0.4, 2.5]` — though the model makes the equivalence
hold for any zoom.) -/
theorem c9_note_hit_test (clickX clickY zoom panX panY w h : ℝ) (_hz : 0 < zoom) :
    (hitTestNote clickX clickY zoom panX panY w h =
        some (getPitchClass (candidateNode clickX clickY zoom panX panY w h).1
                (candidateNode clickX clickY zoom panX panY w h).2,
              (candidateNode clickX clickY zoom panX panY w h).1,
              (candidateNode clickX clickY zoom panX panY w h).2) ↔
      distToCandidate clickX clickY zoom panX panY w h ≤ 22 * zoom * 1.5) ∧
    (hitTestNote clickX clickY zoom panX panY w h = none ↔
      ¬ distToCandidate clickX clickY zoom panX panY w h ≤ 22 * zoom * 1.5) := by
  unfold hitTestNote
  split_ifs with hd <;> simp [hd]

theorem c9_note_hit_test_witness :
    (hitTestNote 490 (300 + 30 * Real.sqrt 3) 1 0 0 800 600 =
        some (getPitchClass (candidateNode 490 (300 + 30 * Real.sqrt 3) 1 0 0 800 600).1
                (candidateNode 490 (300 + 30 * Real.sqrt 3) 1 0 0 800 600).2,
              (candidateNode 490 (300 + 30 * Real.sqrt 3) 1 0 0 800 600).1,
              (candidateNode 490 (300 + 30 * Real.sqrt 3) 1 0 0 800 600).2) ↔
      distToCandidate 490 (300 + 30 * Real.sqrt 3) 1 0 0 800 600 ≤ 22 * 1 * 1.5) ∧
    (hitTestNote 490 (300 + 30 * Real.sqrt 3) 1 0 0 800 600 = none ↔
      ¬ distToCandidate 490 (300 + 30 * Real.sqrt 3) 1 0 0 800 600 ≤ 22 * 1 * 1.5) :=
  c9_note_hit_test 490 (300 + 30 * Real.sqrt 3) 1 0 0 800 600 (by norm_num)

/-! ## BFS queue bookkeeping -/

lemma enqueueAll_nil (st : BfsSt) (d : Nat) : enqueueAll st [] d = st := rfl

lemma enqueueAll_cons (st : BfsSt) (n : LPoint) (ns : List LPoint) (d : Nat) :
    enqueueAll st (n :: ns) d = enqueueAll (enqueue st n.lx n.ly d) ns d := rfl

lemma mem_enqueue_fst {st : BfsSt} {lx ly : Int} {d : Nat} {e : QEntry}
    (h : e ∈ (enqueue st lx ly d).1) :
    e ∈ st.1 ∨ (e = ⟨lx, ly, d⟩ ∧ (⟨lx, ly⟩ : LPoint) ∉ st.2) := by
  unfold enqueue at h
  split_ifs at h with hv
  · exact Or.inl h
  · simp only [List.mem_append, List.mem_singleton] at h
    rcases h with h | h
    · exact Or.inl h
    · exact Or.inr ⟨h, hv⟩

lemma snd_subset_enqueue {st : BfsSt} {lx ly : Int} {d : Nat} :
    st.2 ⊆ (enqueue st lx ly d).2 := by
  unfold enqueue
  split_ifs
  · exact fun _ h => h
  · exact fun a h => List.mem_cons_of_mem _ h

lemma snd_subset_enqueueAll {ns : List LPoint} :
    ∀ {st : BfsSt} {d : Nat}, st.2 ⊆ (enqueueAll st ns d).2 := by
  induction ns with
  | nil => intro st d; exact fun _ h => h
  | cons n ns ih =>
    intro st d
    rw [enqueueAll_cons]
    exact fun a h => ih (snd_subset_enqueue h)

lemma mem_enqueueAll_fst {ns : List LPoint} :
    ∀ {st : BfsSt} {d : Nat} {e : QEntry}, e ∈ (enqueueAll st ns d).1 →
      e ∈ st.1 ∨
        (e.dist = d ∧ (⟨e.lx, e.ly⟩ : LPoint) ∈ ns ∧ (⟨e.lx, e.ly⟩ : LPoint) ∉ st.2) := by
  induction ns with
  | nil => intro st d e h; exact Or.inl h
  | cons n ns ih =>
    intro st d e h
    rw [enqueueAll_cons] at h
    rcases ih h with h1 | ⟨hd, hm, hnv⟩
    · rcases mem_enqueue_fst h1 with h2 | ⟨he, hnv⟩
      · exact Or.inl h2
      · subst he
        exact Or.inr ⟨rfl, List.mem_cons_self n ns, hnv⟩
    · exact Or.inr ⟨hd, List.mem_cons_of_mem _ hm, fun hc => hnv (snd_subset_enqueue hc)⟩

lemma entryWeight_pos (e : QEntry) : 1 ≤ entryWeight e :=
  Nat.le_add_right 1 (expandBound e.dist)

lemma queuePot_cons (e : QEntry) (q : List QEntry) :
    queuePot (e :: q) = entryWeight e + queuePot q := by
  simp [queuePot]

lemma queuePot_append (q1 q2 : List QEntry) :
    queuePot (q1 ++ q2) = queuePot q1 + queuePot q2 := by
  simp [queuePot]

lemma queuePot_eq_zero {q : List QEntry} (h : queuePot q = 0) : q = [] := by
  cases q with
  | nil => rfl
  | cons e rest =>
    rw [queuePot_cons] at h
    have := entryWeight_pos e
    omega

lemma queuePot_enqueue (st : BfsSt) (lx ly : Int) (d : Nat) :
    queuePot (enqueue st lx ly d).1 ≤ queuePot st.1 + (1 + expandBound d) := by
  unfold enqueue
  split_ifs
  · omega
  · rw [queuePot_append]
    have : queuePot [⟨lx, ly, d⟩] = 1 + expandBound d := by
      simp [queuePot, entryWeight]
    omega

lemma queuePot_enqueueAll {ns : List LPoint} :
    ∀ {st : BfsSt} {d : Nat},
      queuePot (enqueueAll st ns d).1 ≤ queuePot st.1 + ns.length * (1 + expandBound d) := by
  induction ns with
  | nil => intro st d; simp [enqueueAll_nil]
  | cons n ns ih =>
    intro st d
    rw [enqueueAll_cons]
    have h1 := @ih (enqueue st n.lx n.ly d) d
    have h2 := queuePot_enqueue st n.lx n.ly d
    have h3 : (n :: ns).length = ns.length + 1 := rfl
    rw [h3]
    have h4 : (ns.length + 1) * (1 + expandBound d)
        = ns.length * (1 + expandBound d) + (1 + expandBound d) := by ring
    omega

lemma expandBound_succ {d : Nat} (h : d < 4) :
    6 * (1 + expandBound (d + 1)) = expandBound d := by
  interval_cases d <;> decide

lemma bfsLoopF_nil (f : Nat) (t : Int) (vis : List LPoint) :
    bfsLoopF f t [] vis = none := by
  cases f <;> rfl

lemma queuePot_expand_le {e : QEntry} {rest : List QEntry} {vis : List LPoint}
    (hd : e.dist < 4) :
    queuePot (enqueueAll (rest, vis) (getNeighbors e.lx e.ly) (e.dist + 1)).1 + 1
      ≤ queuePot (e :: rest) := by
  have h1 := @queuePot_enqueueAll (getNeighbors e.lx e.ly) (rest, vis) (e.dist + 1)
  have h2 : (getNeighbors e.lx e.ly).length = 6 := rfl
  have h3 := expandBound_succ hd
  rw [h2] at h1
  have h4 : queuePot ((rest, vis) : BfsSt).1 = queuePot rest := rfl
  rw [h4] at h1
  rw [queuePot_cons]
  unfold entryWeight
  omega

/-- Fuel irrelevance: any fuel at least the queue's potential computes the
same result, so `chordStep`'s fuel `queuePot` computes the source loop's
true fixpoint (the potential strictly decreases at every iteration, and a
zero potential means an empty queue, where the loop also stops). -/
lemma bfsLoopF_stable (k : Nat) :
    ∀ (f : Nat) (t : Int) (q : List QEntry) (vis : List LPoint),
      queuePot q ≤ f → bfsLoopF (f + k) t q vis = bfsLoopF f t q vis := by
  intro f
  induction f with
  | zero =>
    intro t q vis h
    have hq : q = [] := queuePot_eq_zero (Nat.le_zero.mp h)
    subst hq
    rw [bfsLoopF_nil, bfsLoopF_nil]
  | succ f ih =>
    intro t q vis h
    cases q with
    | nil => rw [bfsLoopF_nil, bfsLoopF_nil]
    | cons e rest =>
      have hfk : f + 1 + k = (f + k) + 1 := by omega
      rw [hfk]
      simp only [bfsLoopF]
      split_ifs with h1 h2
      · rfl
      · apply ih
        have := @queuePot_expand_le e rest vis h2
        omega
      · apply ih
        rw [queuePot_cons] at h
        have := entryWeight_pos e
        omega

/-! ## Graph-distance balls -/

lemma inBall_refl (d : Nat) (p : LPoint) : inBall d p p = true := by
  cases d <;> simp [inBall]

lemma inBall_step :
    ∀ (d : Nat) (s q n : LPoint),
      inBall d s q = true → n ∈ getNeighbors q.lx q.ly → inBall (d + 1) s n = true := by
  intro d
  induction d with
  | zero =>
    intro s q n h hn
    have hsq : s = q := by simpa [inBall] using h
    subst hsq
    rw [inBall]
    refine Bool.or_eq_true_iff.mpr (Or.inr ?_)
    exact List.any_eq_true.mpr ⟨n, hn, inBall_refl 0 n⟩
  | succ d ih =>
    intro s q n h hn
    rw [inBall] at h
    rcases Bool.or_eq_true_iff.mp h with h | h
    · have hsq : s = q := of_decide_eq_true h
      subst hsq
      rw [inBall]
      refine Bool.or_eq_true_iff.mpr (Or.inr ?_)
      exact List.any_eq_true.mpr ⟨n, hn, inBall_refl (d + 1) n⟩
    · obtain ⟨m, hm, hball⟩ := List.any_eq_true.mp h
      rw [inBall]
      refine Bool.or_eq_true_iff.mpr (Or.inr ?_)
      exact List.any_eq_true.mpr ⟨m, hm, ih m q n hball hn⟩

lemma inBall_succ :
    ∀ (d : Nat) (s p : LPoint), inBall d s p = true → inBall (d + 1) s p = true := by
  intro d
  induction d with
  | zero =>
    intro s p h
    have hsp : s = p := by simpa [inBall] using h
    subst hsp
    exact inBall_refl 1 s
  | succ d ih =>
    intro s p h
    rw [inBall] at h
    rcases Bool.or_eq_true_iff.mp h with h | h
    · rw [inBall]
      exact Bool.or_eq_true_iff.mpr (Or.inl h)
    · obtain ⟨m, hm, hball⟩ := List.any_eq_true.mp h
      rw [inBall]
      refine Bool.or_eq_true_iff.mpr (Or.inr ?_)
      exact List.any_eq_true.mpr ⟨m, hm, ih m p hball⟩

lemma inBall_le {d dd : Nat} (h : d ≤ dd) (s p : LPoint)
    (hb : inBall d s p = true) : inBall dd s p = true := by
  obtain ⟨k, rfl⟩ := Nat.exists_eq_add_of_le h
  clear h
  induction k with
  | zero => exact hb
  | succ k ihk => exact inBall_succ (d + k) s p ihk

lemma mem_neighbors_inBall_one {p n : LPoint} (h : n ∈ getNeighbors p.lx p.ly) :
    inBall 1 p n = true :=
  inBall_step 0 p p n (inBall_refl 0 p) h

/-! ## BFS invariants: found points are fresh, near, and on pitch -/

lemma enqueueAll_QInv {sel : List LPoint} {st : BfsSt} {ns : List LPoint} {d : Nat}
    (hinv : QInv sel st.1 st.2) (hd1 : 1 ≤ d) (hd4 : d ≤ 4)
    (hns : ∀ n ∈ ns, ∃ s ∈ sel, inBall d s n = true) :
    QInv sel (enqueueAll st ns d).1 (enqueueAll st ns d).2 := by
  constructor
  · intro e he
    rcases mem_enqueueAll_fst he with h | ⟨hdd, hmem, hnv⟩
    · exact hinv.1 e h
    · refine ⟨fun hc => hnv (hinv.2 _ hc), by omega, by omega, ?_⟩
      obtain ⟨s, hs, hb⟩ := hns _ hmem
      exact ⟨s, hs, by rw [hdd]; exact hb⟩
  · intro s hs
    exact snd_subset_enqueueAll (hinv.2 s hs)

lemma bfs_found (sel : List LPoint) :
    ∀ (f : Nat) (t : Int) (q : List QEntry) (vis : List LPoint)
      (p : LPoint), QInv sel q vis → bfsLoopF f t q vis = some p →
      getPitchClass p.lx p.ly = t ∧ p ∉ sel ∧ ∃ s ∈ sel, inBall 4 s p = true := by
  intro f
  induction f with
  | zero =>
    intro t q vis p _ hrun
    simp [bfsLoopF] at hrun
  | succ f ih =>
    intro t q vis p hinv hrun
    cases q with
    | nil => simp [bfsLoopF] at hrun
    | cons e rest =>
      simp only [bfsLoopF] at hrun
      split_ifs at hrun with h1 h2
      · have hp : p = ⟨e.lx, e.ly⟩ := (Option.some.inj hrun).symm
        obtain ⟨hnotin, hd1, hd4, s, hs, hball⟩ := hinv.1 e (List.mem_cons_self e rest)
        subst hp
        exact ⟨h1, hnotin, s, hs, inBall_le hd4 s _ hball⟩
      · refine ih t _ _ p ?_ hrun
        obtain ⟨hq, hv⟩ := hinv
        have hrest : QInv sel rest vis :=
          ⟨fun x hx => hq x (List.mem_cons_of_mem e hx), hv⟩
        obtain ⟨hnotin, hd1, hd4, s, hs, hball⟩ := hq e (List.mem_cons_self e rest)
        exact @enqueueAll_QInv sel (rest, vis) (getNeighbors e.lx e.ly) (e.dist + 1)
          hrest (by omega) (by omega)
          (fun n hn => ⟨s, hs, inBall_step e.dist s ⟨e.lx, e.ly⟩ n hball hn⟩)
      · refine ih t rest vis p ?_ hrun
        exact ⟨fun x hx => hinv.1 x (List.mem_cons_of_mem e hx), hinv.2⟩

lemma seed_fold_QInv {sel : List LPoint} :
    ∀ (l : List LPoint) (st : BfsSt), (∀ x ∈ l, x ∈ sel) → QInv sel st.1 st.2 →
      QInv sel (l.foldl (fun s n => enqueueAll s (getNeighbors n.lx n.ly) 1) st).1
        (l.foldl (fun s n => enqueueAll s (getNeighbors n.lx n.ly) 1) st).2 := by
  intro l
  induction l with
  | nil => intro st _ h; exact h
  | cons x l ihl =>
    intro st hsub hinv
    refine ihl _ (fun y hy => hsub y (List.mem_cons_of_mem x hy)) ?_
    refine enqueueAll_QInv hinv (by omega) (by omega) ?_
    intro n hn
    exact ⟨x, hsub x (List.mem_cons_self x l), mem_neighbors_inBall_one hn⟩

/-- Whatever `chordStep` finds has the target pitch class, is none of the
already-selected points, and lies within graph-distance 4 of one of them. -/
lemma chordStep_found {sel : List LPoint} {t : Int} {p : LPoint}
    (h : chordStep sel t = some p) :
    getPitchClass p.lx p.ly = t ∧ p ∉ sel ∧ ∃ s ∈ sel, inBall 4 s p = true := by
  unfold chordStep at h
  cases hlast : sel.getLast? with
  | none => rw [hlast] at h; exact absurd h (by simp)
  | some lastNode =>
    rw [hlast] at h
    have hlmem : lastNode ∈ sel := List.mem_of_mem_getLast? hlast
    have h0 : QInv sel ([] : List QEntry) sel :=
      ⟨fun e he => absurd he (List.not_mem_nil e), fun _ hs => hs⟩
    have h1 := @enqueueAll_QInv sel (([] : List QEntry), sel)
      (getNeighbors lastNode.lx lastNode.ly) 1 h0 (by omega) (by omega)
      (fun n hn => ⟨lastNode, hlmem, mem_neighbors_inBall_one hn⟩)
    have h2 : QInv sel (seedState sel lastNode).1 (seedState sel lastNode).2 := by
      unfold seedState
      exact seed_fold_QInv _ _ (fun x hx => (List.dropLast_sublist sel).subset hx) h1
    exact bfs_found sel _ t _ _ p h2 h

/-! ## Embedding-level invariants (claims C1, C10, C6, C5) -/

lemma chordFoldStep_cases (rootPC : Int) (sel : List LPoint) (iv : Int) :
    chordFoldStep rootPC sel iv = sel ∨
    ∃ p, chordStep sel (mod (rootPC + iv) 12) = some p ∧
      chordFoldStep rootPC sel iv = sel ++ [p] := by
  unfold chordFoldStep
  cases h : chordStep sel (mod (rootPC + iv) 12) with
  | none => exact Or.inl rfl
  | some p => exact Or.inr ⟨p, rfl, rfl⟩

lemma foldl_chord_inv (rootPC : Int) (P : List LPoint → Prop) (Q : Int → Prop)
    (hstep : ∀ sel iv p, Q iv → P sel →
      chordStep sel (mod (rootPC + iv) 12) = some p → P (sel ++ [p])) :
    ∀ (l : List Int), (∀ iv ∈ l, Q iv) → ∀ sel, P sel →
      P (l.foldl (chordFoldStep rootPC) sel) := by
  intro l
  induction l with
  | nil => intro _ sel h; exact h
  | cons iv l ihl =>
    intro hQ sel hP
    rw [List.foldl_cons]
    refine ihl (fun j hj => hQ j (List.mem_cons_of_mem iv hj)) _ ?_
    rcases chordFoldStep_cases rootPC sel iv with h | ⟨p, hs, h⟩
    · rw [h]; exact hP
    · rw [h]; exact hstep sel iv p (hQ iv (List.mem_cons_self iv l)) hP hs

/-- The full structural invariant of every embedding `findChordLayout`
produces: nonempty, duplicate-free, and each point after the root within
graph-distance 4 of an earlier point. -/
lemma findChordLayout_inv (rootLx rootLy : Int) (intervals : List Int) :
    findChordLayout rootLx rootLy intervals ≠ [] ∧
    (findChordLayout rootLx rootLy intervals).Nodup ∧
    ∀ k, 1 ≤ k → k < (findChordLayout rootLx rootLy intervals).length →
      ∃ s ∈ (findChordLayout rootLx rootLy intervals).take k,
        inBall 4 s ((findChordLayout rootLx rootLy intervals).getD k ⟨0, 0⟩) = true := by
  unfold findChordLayout
  refine foldl_chord_inv (getPitchClass rootLx rootLy)
    (fun sel => sel ≠ [] ∧ sel.Nodup ∧
      ∀ k, 1 ≤ k → k < sel.length →
        ∃ s ∈ sel.take k, inBall 4 s (sel.getD k ⟨0, 0⟩) = true)
    (fun _ => True) ?_ _ (fun _ _ => trivial) _ ?_
  · intro sel iv p _ hP hsome
    obtain ⟨hne, hnd, hconn⟩ := hP
    obtain ⟨hpc, hnotin, s0, hs0, hball⟩ := chordStep_found hsome
    refine ⟨by simp, ?_, ?_⟩
    · rw [List.nodup_append]
      refine ⟨hnd, List.nodup_singleton p, ?_⟩
      intro a ha hha
      rw [List.mem_singleton] at hha
      subst hha
      exact hnotin ha
    · intro k hk1 hklen
      rw [List.length_append, List.length_singleton] at hklen
      rcases Nat.lt_or_ge k sel.length with hlt | hge
      · rw [List.take_append_of_le_length (Nat.le_of_lt hlt),
          List.getD_append _ _ _ _ hlt]
        obtain ⟨s, hs, hb⟩ := hconn k hk1 hlt
        exact ⟨s, hs, hb⟩
      · have hk : k = sel.length := by omega
        subst hk
        rw [List.take_left, List.getD_append_right _ _ _ _ (Nat.le_refl _)]
        simp only [Nat.sub_self, List.getD]
        exact ⟨s0, hs0, by simpa using hball⟩
  · exact ⟨by simp, List.nodup_singleton _, by intro k h1 h2; simp at h2; omega⟩

/-- Counterexample to claim C1 as stated: `findChordLayout 0 0 [0,2]`
embeds the second note at `(2,0)`, which is not one of the six
`getNeighbors` of the only earlier point `(0,0)` — the BFS accepts
matches up to depth 4, not only direct neighbors. -/
theorem c1_cex_not_direct_neighbor :
    findChordLayout 0 0 [0, 2] = [⟨0, 0⟩, ⟨2, 0⟩] ∧
    (⟨2, 0⟩ : LPoint) ∉ getNeighbors 0 0 := by
  decide

/-- Claim C1 (amended): every point after the root in any produced
embedding is within NeighborGraph graph-distance at most 4 of at least
one point that occurs earlier in the embedding (direct adjacency is not
guaranteed — see the counterexample). -/
theorem c1_connected_within_four (rootLx rootLy : Int) (intervals : List Int)
    (k : Nat) (hk : 1 ≤ k)
    (hlen : k < (findChordLayout rootLx rootLy intervals).length) :
    ∃ s ∈ (findChordLayout rootLx rootLy intervals).take k,
      inBall 4 s ((findChordLayout rootLx rootLy intervals).getD k ⟨0, 0⟩) = true :=
  (findChordLayout_inv rootLx rootLy intervals).2.2 k hk hlen

theorem c1_connected_within_four_witness :
    ∃ s ∈ (findChordLayout 0 0 [0, 2]).take 1,
      inBall 4 s ((findChordLayout 0 0 [0, 2]).getD 1 ⟨0, 0⟩) = true :=
  c1_connected_within_four 0 0 [0, 2] 1 (by omega) (by decide)

/-- Claim C10: every non-root point of a produced embedding is distinct
from all earlier points (the BFS pre-marks embedded points visited and
never re-selects them) and lies within NeighborGraph graph-distance at
most 4 of at least one earlier point (seeds start at depth 1 and only
nodes of depth `< 4` are expanded). -/
theorem c10_fresh_and_within_four (rootLx rootLy : Int) (intervals : List Int) :
    (findChordLayout rootLx rootLy intervals).Nodup ∧
    ∀ k, 1 ≤ k → k < (findChordLayout rootLx rootLy intervals).length →
      ∃ s ∈ (findChordLayout rootLx rootLy intervals).take k,
        inBall 4 s ((findChordLayout rootLx rootLy intervals).getD k ⟨0, 0⟩) = true :=
  ⟨(findChordLayout_inv rootLx rootLy intervals).2.1,
   (findChordLayout_inv rootLx rootLy intervals).2.2⟩

theorem c10_fresh_and_within_four_witness :
    (findChordLayout 0 0 [0, 4, 7]).Nodup ∧
    (∃ s ∈ (findChordLayout 0 0 [0, 4, 7]).take 2,
      inBall 4 s ((findChordLayout 0 0 [0, 4, 7]).getD 2 ⟨0, 0⟩) = true) :=
  ⟨(c10_fresh_and_within_four 0 0 [0, 4, 7]).1,
   (c10_fresh_and_within_four 0 0 [0, 4, 7]).2 2 (by omega) (by decide)⟩

lemma foldl_chord_length (rootPC : Int) :
    ∀ (l : List Int) (sel : List LPoint),
      (l.foldl (chordFoldStep rootPC) sel).length ≤ sel.length + l.length := by
  intro l
  induction l with
  | nil => intro sel; simp
  | cons iv l ihl =>
    intro sel
    rw [List.foldl_cons]
    have h1 := ihl (chordFoldStep rootPC sel iv)
    have h2 : (chordFoldStep rootPC sel iv).length ≤ sel.length + 1 := by
      rcases chordFoldStep_cases rootPC sel iv with h | ⟨p, _, h⟩ <;> rw [h] <;> simp
    have h3 : (iv :: l).length = l.length + 1 := rfl
    omega

/-- Claim C6: if the BFS for an interval exhausts its queue with no match
within depth 4, `findChordLayout` appends nothing for that interval and
continues: the function is total (it never raises — every branch of the
model returns a value), the embedding can only be shorter than the
interval list, and every embedded non-root point carries the target pitch
class of one of the requested intervals (never a wrong-pitch substitute). -/
theorem c6_skip_degrades_silently (rootLx rootLy : Int) (intervals : List Int)
    (hne : intervals ≠ []) :
    (findChordLayout rootLx rootLy intervals).length ≤ intervals.length ∧
    ∀ p ∈ (findChordLayout rootLx rootLy intervals).drop 1,
      ∃ iv ∈ intervals.drop 1,
        getPitchClass p.lx p.ly = mod (getPitchClass rootLx rootLy + iv) 12 := by
  constructor
  · have h1 := foldl_chord_length (getPitchClass rootLx rootLy) (intervals.drop 1)
      [⟨rootLx, rootLy⟩]
    unfold findChordLayout
    have h2 : (intervals.drop 1).length = intervals.length - 1 :=
      List.length_drop 1 intervals
    have h3 : 1 ≤ intervals.length := by
      cases intervals with
      | nil => exact absurd rfl hne
      | cons a l => simp
    simp only [List.length_singleton] at h1
    omega
  · have hmain := foldl_chord_inv (getPitchClass rootLx rootLy)
      (fun sel => sel ≠ [] ∧ ∀ p ∈ sel.drop 1,
        ∃ iv ∈ intervals.drop 1,
          getPitchClass p.lx p.ly = mod (getPitchClass rootLx rootLy + iv) 12)
      (fun iv => iv ∈ intervals.drop 1) ?_ (intervals.drop 1) (fun _ h => h)
      [⟨rootLx, rootLy⟩] ⟨by simp, by simp⟩
    · exact hmain.2
    · intro sel iv p hQ hP hsome
      obtain ⟨hne2, hdrop⟩ := hP
      have hlen : 1 ≤ sel.length := by
        cases sel with
        | nil => exact absurd rfl hne2
        | cons a l => simp
      refine ⟨by simp, ?_⟩
      rw [List.drop_append_of_le_length hlen]
      intro x hx
      rw [List.mem_append, List.mem_singleton] at hx
      rcases hx with hx | hx
      · exact hdrop x hx
      · subst hx
        exact ⟨iv, hQ, (chordStep_found hsome).1⟩

theorem c6_skip_degrades_silently_witness :
    (findChordLayout 0 0 [0, 4, 7]).length ≤ 3 ∧
    ∀ p ∈ (findChordLayout 0 0 [0, 4, 7]).drop 1,
      ∃ iv ∈ ([0, 4, 7] : List Int).drop 1,
        getPitchClass p.lx p.ly = mod (getPitchClass 0 0 + iv) 12 :=
  c6_skip_degrades_silently 0 0 [0, 4, 7] (by simp)

lemma idxFoldStep_cases (rootPC : Int) (acc : List LPoint × List (Nat × LPoint))
    (q : Nat × Int) :
    idxFoldStep rootPC acc q = acc ∨
    ∃ pt, chordStep acc.1 (mod (rootPC + q.2) 12) = some pt ∧
      idxFoldStep rootPC acc q = (acc.1 ++ [pt], acc.2 ++ [(q.1, pt)]) := by
  unfold idxFoldStep
  cases h : chordStep acc.1 (mod (rootPC + q.2) 12) with
  | none => exact Or.inl rfl
  | some pt => exact Or.inr ⟨pt, rfl, rfl⟩

lemma getD_drop_one (ivs : List Int) (m : Nat) :
    (ivs.drop 1).getD m 0 = ivs.getD (m + 1) 0 := by
  cases ivs <;> rfl

lemma mem_enumFrom_facts {ivs : List Int} {q : Nat × Int}
    (h : q ∈ List.enumFrom 1 (ivs.drop 1)) :
    1 ≤ q.1 ∧ q.1 < ivs.length ∧ ivs.getD q.1 0 = q.2 := by
  obtain ⟨i, x⟩ := q
  obtain ⟨h1, h2, h3⟩ := List.mem_enumFrom h
  have hlen : (ivs.drop 1).length = ivs.length - 1 := List.length_drop 1 ivs
  refine ⟨h1, by omega, ?_⟩
  have hidx : i - 1 < (ivs.drop 1).length := by omega
  have h4 : (ivs.drop 1).getD (i - 1) 0 = (ivs.drop 1)[i - 1] :=
    List.getD_eq_getElem _ _ hidx
  have h5 := getD_drop_one ivs (i - 1)
  have h6 : i - 1 + 1 = i := by omega
  rw [h6] at h5
  rw [← h5, h4, ← h3]

lemma idx_fold_spec (rootPC : Int) (ivs : List Int) (R : Nat → LPoint → Prop)
    (hstep : ∀ (accfst : List LPoint) (i : Nat) (iv : Int) (pt : LPoint),
      1 ≤ i → i < ivs.length → ivs.getD i 0 = iv →
      chordStep accfst (mod (rootPC + iv) 12) = some pt → R i pt) :
    ∀ (l : List (Nat × Int)) (acc : List LPoint × List (Nat × LPoint)),
      (∀ q ∈ l, 1 ≤ q.1 ∧ q.1 < ivs.length ∧ ivs.getD q.1 0 = q.2) →
      (∀ i pt, (i, pt) ∈ acc.2 → R i pt) →
      ∀ i pt, (i, pt) ∈ (l.foldl (idxFoldStep rootPC) acc).2 → R i pt := by
  intro l
  induction l with
  | nil => intro acc _ hacc i pt h; exact hacc i pt h
  | cons q l ihl =>
    intro acc hql hacc i pt h
    rw [List.foldl_cons] at h
    refine ihl _ (fun r hr => hql r (List.mem_cons_of_mem q hr)) ?_ i pt h
    intro j qt hj
    rcases idxFoldStep_cases rootPC acc q with he | ⟨pt2, hsome, he⟩
    · rw [he] at hj; exact hacc j qt hj
    · rw [he] at hj
      rw [List.mem_append, List.mem_singleton] at hj
      rcases hj with hj | hj
      · exact hacc j qt hj
      · obtain ⟨hq1, hq2, hq3⟩ := hql q (List.mem_cons_self q l)
        have hj1 : j = q.1 := congrArg Prod.fst hj
        have hj2 : qt = pt2 := congrArg Prod.snd hj
        rw [hj1, hj2]
        exact hstep acc.1 q.1 q.2 pt2 hq1 hq2 hq3 hsome

/-- Claim C5: every point the layout search embeds for interval index `i`
carries pitch class `mod(pitchClass(root) + intervals[i], 12)`; skipped
intervals record no pair, so they are excluded from the correspondence.
(`findChordLayoutIdx` is `findChordLayout` instrumented with the interval
index of each embedded point; `findChordLayoutIdx_fst` shows the
embeddings agree.) -/
theorem c5_pitch_correspondence (rootLx rootLy : Int) (intervals : List Int)
    (i : Nat) (p : LPoint)
    (h : (i, p) ∈ (findChordLayoutIdx rootLx rootLy intervals).2) :
    1 ≤ i ∧ i < intervals.length ∧
    getPitchClass p.lx p.ly =
      mod (getPitchClass rootLx rootLy + intervals.getD i 0) 12 := by
  unfold findChordLayoutIdx at h
  refine idx_fold_spec (getPitchClass rootLx rootLy) intervals
    (fun i p => 1 ≤ i ∧ i < intervals.length ∧
      getPitchClass p.lx p.ly =
        mod (getPitchClass rootLx rootLy + intervals.getD i 0) 12)
    ?_ _ _ (fun q hq => mem_enumFrom_facts hq)
    (fun j qt hj => absurd hj (List.not_mem_nil (j, qt))) i p h
  intro accfst j iv pt hj1 hj2 hj3 hsome
  refine ⟨hj1, hj2, ?_⟩
  rw [hj3]
  exact (chordStep_found hsome).1

theorem c5_pitch_correspondence_witness :
    1 ≤ 1 ∧ 1 < ([0, 4, 7] : List Int).length ∧
    getPitchClass (0 : Int) 1 =
      mod (getPitchClass 0 0 + ([0, 4, 7] : List Int).getD 1 0) 12 :=
  c5_pitch_correspondence 0 0 [0, 4, 7] 1 ⟨0, 1⟩ (by decide)

lemma idx_fold_fst (rootPC : Int) :
    ∀ (l : List Int) (k : Nat) (sel : List LPoint) (ann : List (Nat × LPoint)),
      ((List.enumFrom k l).foldl (idxFoldStep rootPC) (sel, ann)).1
        = l.foldl (chordFoldStep rootPC) sel := by
  intro l
  induction l with
  | nil => intro k sel ann; rfl
  | cons iv l ihl =>
    intro k sel ann
    rw [List.enumFrom_cons]
    simp only [List.foldl_cons]
    cases h : chordStep sel (mod (rootPC + iv) 12) with
    | none =>
      have e1 : idxFoldStep rootPC (sel, ann) (k, iv) = (sel, ann) := by
        simp [idxFoldStep, h]
      have e2 : chordFoldStep rootPC sel iv = sel := by
        simp [chordFoldStep, h]
      rw [e1, e2]
      exact ihl (k + 1) sel ann
    | some pt =>
      have e1 : idxFoldStep rootPC (sel, ann) (k, iv) = (sel ++ [pt], ann ++ [(k, pt)]) := by
        simp [idxFoldStep, h]
      have e2 : chordFoldStep rootPC sel iv = sel ++ [pt] := by
        simp [chordFoldStep, h]
      rw [e1, e2]
      exact ihl (k + 1) (sel ++ [pt]) (ann ++ [(k, pt)])

/-- The instrumented fold embeds exactly the points `findChordLayout`
embeds, in the same order. -/
lemma findChordLayoutIdx_fst (rootLx rootLy : Int) (intervals : List Int) :
    (findChordLayoutIdx rootLx rootLy intervals).1
      = findChordLayout rootLx rootLy intervals := by
  unfold findChordLayoutIdx findChordLayout
  exact idx_fold_fst (getPitchClass rootLx rootLy) (intervals.drop 1) 1
    [⟨rootLx, rootLy⟩] []

end Tonnetz
